import Mathlib

/-!
Verification of the segment-to-asset video pipeline.

Python strings are modelled as `List Char`; the Python string operations
used by the code (`str.strip`, `str.lower`, `str.split`, `str.startswith`,
f-string concatenation) are embedded as explicit functions below, so that
every definition evaluates by kernel reduction.
-/

namespace NV

/-- Python strings, modelled as lists of characters (`len` = list length). -/
abbrev Str := List Char

/-- ASCII whitespace, as recognised by Python's `str.strip` / `\s`. -/
def isSpace (c : Char) : Bool :=
  c = ' ' || c = '\t' || c = '\n' || c = '\r' || c = '\x0b' || c = '\x0c'

/-- Python `str.lower` (ASCII). -/
def pyLower (s : Str) : Str := s.map Char.toLower

/-- Python `str.strip()`: drop leading and trailing whitespace. -/
def pyStrip (s : Str) : Str :=
  ((s.dropWhile isSpace).reverse.dropWhile isSpace).reverse

/-- One scanning step of Python `str.split(sep)` (non-overlapping, left to
right, empty pieces preserved); `fuel` bounds the recursion and is
instantiated with the length of the string, which one character per step
never exhausts. -/
def splitSepGo (sep : Str) : Nat → Str → Str → List Str
  | 0, l, acc => [acc.reverse ++ l]
  | _ + 1, [], acc => [acc.reverse]
  | fuel + 1, c :: rest, acc =>
    if sep.isPrefixOf (c :: rest) then
      acc.reverse :: splitSepGo sep fuel (rest.drop (sep.length - 1)) []
    else
      splitSepGo sep fuel rest (c :: acc)

/-- Python `str.split(sep)` for a non-empty separator. -/
def pySplit (sep : Str) (l : Str) : List Str := splitSepGo sep l.length l []

/-- Python `str.split()` (no argument): split on whitespace runs, dropping
empty pieces. -/
def pySplitWsAux : Str → Str → List Str
  | [], acc => if acc = [] then [] else [acc.reverse]
  | c :: rest, acc =>
    if isSpace c then
      if acc = [] then pySplitWsAux rest [] else acc.reverse :: pySplitWsAux rest []
    else pySplitWsAux rest (c :: acc)

def pySplitWs (l : Str) : List Str := pySplitWsAux l []

/-- Python `"\n".join`. -/
def joinLines (ls : List Str) : Str := List.intercalate ['\n'] ls

/-! ## parser.py -/

/-- A parsed segment (`{"type": "text", "heading": …, "content": …}`;
the constant `"type"` field is omitted). -/
structure Seg where
  heading : Option Str
  content : Str
deriving DecidableEq, Repr

/-- `STRUCTURAL_HEADINGS` from parser.py. -/
def STRUCTURAL_HEADINGS : List Str :=
  ["introduction".data, "conclusion".data, "sources".data, "references".data,
   "bibliography".data, "further reading".data, "credits".data]

/-- The heading matcher `HEAD_RE = ^\s*#{3}\s*(.+)$` (re.M), applied to one
line: a line is a heading line iff after leading whitespace it starts with
`###` followed by at least one character (`.+` also matches whitespace, via
backtracking of the inner `\s*`); the raw capture is everything after the
`###` (it is stripped before any use, so the inner `\s*` is absorbed). -/
def headOf (l : Str) : Option Str :=
  let t := l.dropWhile isSpace
  if ("###".data).isPrefixOf t then
    let rest := t.drop 3
    if rest = [] then none else some rest
  else none

/-- `re.split` with the capturing heading regex, at line granularity:
returns the intro lines before the first heading line, and for each heading
line its capture paired with the body lines up to the next heading line. -/
def split_parts (lines : List Str) : List Str × List (Str × List Str) :=
  lines.foldr (fun l acc =>
    match headOf l with
    | some h => ([], (h, acc.1) :: acc.2)
    | none => (l :: acc.1, acc.2)) ([], [])

/-- The body of parse_script's `for head, body in zip(it, it)` loop:
skip `Sources`, skip empty bodies, and prepend informative (non-structural)
headings to the spoken content. -/
def process_pair (head body : Str) : Option Seg :=
  let head_clean := pyStrip head
  let body_clean := pyStrip body
  if ("sources".data).isPrefixOf (pyLower head_clean) then none
  else if body_clean = [] then none
  else
    let is_structural :=
      STRUCTURAL_HEADINGS.any (fun s => s.isPrefixOf (pyLower head_clean))
    let content :=
      if is_structural then body_clean else head_clean ++ '.' :: ' ' :: body_clean
    some { heading := some head_clean, content := content }

/-- `parse_script` from parser.py. -/
def parse_script (script : Str) : List Seg :=
  let p := split_parts (pySplit ['\n'] script)
  let first := pyStrip (joinLines p.1)
  let intro : List Seg := if first = [] then [] else [{ heading := none, content := first }]
  intro ++ p.2.filterMap (fun pr => process_pair pr.1 (joinLines pr.2))

/-- The heading captures of a script, in source order. -/
def heading_lines (script : Str) : List Str :=
  (pySplit ['\n'] script).filterMap headOf

/-! ### Helper lemmas about `pyStrip` and the split -/

theorem mem_dropWhile_of_neg {p : Char → Bool} {x : Char} {l : Str}
    (hx : x ∈ l) (hp : p x = false) : x ∈ l.dropWhile p := by
  have := List.takeWhile_append_dropWhile (p := p) (l := l)
  rw [← this] at hx
  rcases List.mem_append.mp hx with h | h
  · exact absurd (List.mem_takeWhile_imp h) (by simp [hp])
  · exact h

theorem mem_pyStrip {x : Char} {l : Str} (hx : x ∈ l) (hp : isSpace x = false) :
    x ∈ pyStrip l := by
  unfold pyStrip
  exact List.mem_reverse.mpr
    (mem_dropWhile_of_neg (List.mem_reverse.mpr (mem_dropWhile_of_neg hx hp)) hp)

theorem pyStrip_ne_nil {x : Char} {l : Str} (hx : x ∈ l) (hp : isSpace x = false) :
    pyStrip l ≠ [] :=
  List.ne_nil_of_mem (mem_pyStrip hx hp)

theorem exists_nonspace_of_pyStrip_ne_nil {l : Str} (h : pyStrip l ≠ []) :
    ∃ x ∈ l, isSpace x = false := by
  by_contra hall
  push_neg at hall
  have hall' : ∀ x ∈ l, isSpace x = true := by
    intro x hx
    have := hall x hx
    simpa using this
  apply h
  unfold pyStrip
  rw [List.dropWhile_eq_nil_iff.mpr hall']
  simp

theorem pyStrip_pyStrip_ne_nil {l : Str} (h : pyStrip l ≠ []) :
    pyStrip (pyStrip l) ≠ [] := by
  obtain ⟨x, hx, hs⟩ := exists_nonspace_of_pyStrip_ne_nil h
  exact pyStrip_ne_nil (mem_pyStrip hx hs) hs

theorem split_parts_map_fst (lines : List Str) :
    (split_parts lines).2.map Prod.fst = lines.filterMap headOf := by
  induction lines with
  | nil => rfl
  | cons l ls ih =>
    simp only [split_parts, List.foldr_cons, List.filterMap_cons]
    cases h : headOf l with
    | some hd => simp only [h, List.map_cons]; exact congrArg _ (by simpa [split_parts] using ih)
    | none => simpa [h, split_parts] using ih

theorem process_pair_heading {h b : Str} {seg : Seg}
    (hp : process_pair h b = some seg) : seg.heading = some (pyStrip h) := by
  unfold process_pair at hp
  dsimp only at hp
  split_ifs at hp with h1 h2 h3
  · rw [← Option.some.inj hp]
  · rw [← Option.some.inj hp]

theorem process_pair_content {h b : Str} {seg : Seg}
    (hp : process_pair h b = some seg) : pyStrip seg.content ≠ [] := by
  unfold process_pair at hp
  dsimp only at hp
  split_ifs at hp with h1 h2 h3
  · rw [← Option.some.inj hp]
    exact pyStrip_pyStrip_ne_nil h2
  · rw [← Option.some.inj hp]
    exact pyStrip_ne_nil (x := '.') (by simp) (by decide)

theorem filterMap_process_pair_sublist (pairs : List (Str × List Str)) :
    ((pairs.filterMap (fun pr => process_pair pr.1 (joinLines pr.2))).map Seg.heading).Sublist
      (pairs.map (fun pr => some (pyStrip pr.1))) := by
  induction pairs with
  | nil => simp
  | cons pr rest ih =>
    simp only [List.filterMap_cons, List.map_cons]
    cases h : process_pair pr.1 (joinLines pr.2) with
    | none => exact ih.cons _
    | some seg =>
      simp only [List.map_cons, process_pair_heading h]
      exact ih.cons₂ _

/-! ### Claim theorems about the Segmenter -/

/-- C1 counterexample: the heading `References` prefix-matches the member
`references` of the structural-exclusion set, yet with body `Smith 2020.`
parse_script does NOT skip the segment — a segment with that heading
appears in the output, so the claimed skip does not hold for every member
of the set. -/
theorem c1_counterexample :
    ("references".data ∈ (["sources".data, "references".data, "bibliography".data,
        "further reading".data, "credits".data] : List Str)) ∧
    ("references".data).isPrefixOf (pyLower (pyStrip "References".data)) = true ∧
    (parse_script "### References\nSmith 2020.".data).map Seg.heading =
      [some "References".data] := by decide

/-- C1 (amended): only a trimmed heading whose lowercase form starts with
`sources` makes parse_script skip the (heading, body) pair entirely,
regardless of the body. -/
theorem c1_sources_skipped (head body : Str)
    (h : ("sources".data).isPrefixOf (pyLower (pyStrip head)) = true) :
    process_pair head body = none := by
  unfold process_pair
  simp [h]

/-- Witness for C1 (amended) at the concrete pair (`Sources`, a URL body). -/
theorem c1_sources_skipped_witness :
    process_pair "Sources".data "http://x.com".data = none :=
  c1_sources_skipped _ _ (by decide)

/-- C4: on the script `"Intro text.\n### Real Madrid News\nMadrid won.\n###
Sources\nhttp://x.com"`, parse_script returns exactly the two claimed
segments and the Sources heading yields no segment. -/
theorem c4_demo_parse :
    parse_script ("Intro text.\n### Real Madrid News\nMadrid won.\n### Sources\nhttp://x.com".data) =
      [{ heading := none, content := "Intro text.".data },
       { heading := some "Real Madrid News".data,
         content := "Real Madrid News. Madrid won.".data }] := by decide

/-- C5: for every script with K heading markers, parse_script returns at
most K+1 segments; the segments' headings form a sublist of the headings in
source order (preceded by the optional headless intro), so segments are
neither reordered nor duplicated; and no returned segment has content that
is empty after trimming. -/
theorem c5_segmenter_bounds (script : Str) :
    (parse_script script).length ≤ (heading_lines script).length + 1 ∧
    ((parse_script script).map Seg.heading).Sublist
      (none :: (heading_lines script).map (fun h => some (pyStrip h))) ∧
    ∀ seg ∈ parse_script script, pyStrip seg.content ≠ [] := by
  have hpairs : ((split_parts (pySplit ['\n'] script)).2.map Prod.fst)
      = heading_lines script := split_parts_map_fst _
  have hlen : (split_parts (pySplit ['\n'] script)).2.length
      = (heading_lines script).length := by
    rw [← hpairs, List.length_map]
  refine ⟨?_, ?_, ?_⟩
  · unfold parse_script
    dsimp only
    rw [List.length_append]
    have h2 : ((split_parts (pySplit ['\n'] script)).2.filterMap
        (fun pr => process_pair pr.1 (joinLines pr.2))).length
        ≤ (heading_lines script).length :=
      le_trans (List.length_filterMap_le _ _) (le_of_eq hlen)
    have h1 : (if pyStrip (joinLines (split_parts (pySplit ['\n'] script)).1) = []
        then ([] : List Seg)
        else [{ heading := none,
                content := pyStrip (joinLines (split_parts (pySplit ['\n'] script)).1) }]).length ≤ 1 := by
      split_ifs <;> simp
    omega
  · unfold parse_script
    dsimp only
    rw [List.map_append]
    have hsub : (((split_parts (pySplit ['\n'] script)).2.filterMap
          (fun pr => process_pair pr.1 (joinLines pr.2))).map Seg.heading).Sublist
        ((heading_lines script).map (fun h => some (pyStrip h))) := by
      have := filterMap_process_pair_sublist (split_parts (pySplit ['\n'] script)).2
      rw [← hpairs, List.map_map]
      exact this
    split_ifs with hfirst
    · simp only [List.map_nil, List.nil_append]
      exact hsub.cons _
    · simp only [List.map_cons, List.map_nil, List.singleton_append]
      exact hsub.cons₂ _
  · intro seg hseg
    unfold parse_script at hseg
    dsimp only at hseg
    rcases List.mem_append.mp hseg with h | h
    · split_ifs at h with hfirst
      · exact absurd h (by simp)
      · have hs2 : seg = Seg.mk none (pyStrip (joinLines (split_parts (pySplit ['\n'] script)).1)) := by
          simpa using h
        rw [hs2]
        exact pyStrip_pyStrip_ne_nil hfirst
    · obtain ⟨pr, _, hpr⟩ := List.mem_filterMap.mp h
      exact process_pair_content hpr

/-- C9: a (heading, body) pair whose trimmed heading case-insensitively
starts with one of `introduction`, `conclusion`, `references`,
`bibliography`, `further reading`, `credits` — but not with `sources` —
and whose body is non-empty after trimming is retained with the heading
recorded and the content equal to the trimmed body alone (the heading is
not prepended to the narration text). -/
theorem c9_structural_body_only (head body : Str)
    (hstruct : ∃ s ∈ (["introduction".data, "conclusion".data, "references".data,
        "bibliography".data, "further reading".data, "credits".data] : List Str),
        s.isPrefixOf (pyLower (pyStrip head)) = true)
    (hns : ("sources".data).isPrefixOf (pyLower (pyStrip head)) = false)
    (hb : pyStrip body ≠ []) :
    process_pair head body =
      some { heading := some (pyStrip head), content := pyStrip body } := by
  unfold process_pair
  have hany : STRUCTURAL_HEADINGS.any
      (fun s => s.isPrefixOf (pyLower (pyStrip head))) = true := by
    rcases hstruct with ⟨s, hs, hp⟩
    refine List.any_eq_true.mpr ⟨s, ?_, hp⟩
    simp only [STRUCTURAL_HEADINGS]
    simp only [List.mem_cons, List.mem_singleton] at hs ⊢
    tauto
  simp [hns, hb, hany]

/-- Witness for C9 at the pair (`Introduction to Quantum Computing`,
non-empty body): the heading is structural by prefix match and is omitted
from the narration content. -/
theorem c9_structural_body_only_witness :
    process_pair "Introduction to Quantum Computing".data "Qubits are cool.".data =
      some { heading := some "Introduction to Quantum Computing".data,
             content := "Qubits are cool.".data } := by
  have h := c9_structural_body_only "Introduction to Quantum Computing".data
    "Qubits are cool.".data
    ⟨"introduction".data, by decide, by decide⟩ (by decide) (by decide)
  rw [h]
  decide

/-! ## image_query_refiner.py -/

/-- The stop-word set of `_get_topic_keyword`. -/
def stop_words : List Str :=
  ["top".data, "the".data, "a".data, "an".data, "how".data, "to".data, "for".data,
   "of".data, "in".data, "will".data, "is".data, "are".data, "and".data,
   "advantages".data, "disadvantages".data]

/-- The first element of `sorted(words, key=len, reverse=True)`: since
Python's sort is stable, this is the earliest word of maximal length. -/
def longestFirst (w : Str) (ws : List Str) : Str :=
  ws.foldl (fun best x => if best.length < x.length then x else best) w

/-- `_get_topic_keyword` from image_query_refiner.py. -/
def _get_topic_keyword (topic : Str) : Str :=
  if pyStrip topic = [] then "image".data
  else
    let words := ((pySplitWs topic).map pyLower).filter (fun w => decide (w ∉ stop_words))
    match words with
    | [] => (pySplitWs topic).headD []
    | w :: ws => longestFirst w ws

/-- A JSON value inside a list returned for one segment index: either a
string (kept by the `isinstance(q, str)` filter) or anything else
(dropped). -/
inductive JVal where
  | str (s : Str)
  | other
deriving DecidableEq

/-- The outcome of the external `_call_o3` call as observed by
`batch_refine_scenes`: the call returned `None`, returned text that
`json.loads` rejects, or returned a parsed JSON object mapping segment
indices (JSON keys `str(i)`) to lists of values. -/
inductive CallOutcome where
  | failed
  | unparseable
  | parsed (m : List (Nat × List JVal))
deriving DecidableEq

/-- `data.get(str(i), [])` over the parsed mapping. -/
def lookupIdx (m : List (Nat × List JVal)) (i : Nat) : Option (List JVal) :=
  (m.find? (fun pr => pr.1 = i)).map Prod.snd

/-- The fallback query `f"{topic_kw} segment {i} fallback {j+1}"`. -/
def fb_failed (kw : Str) (i j : Nat) : Str :=
  kw ++ " segment ".data ++ (Nat.repr i).data ++ " fallback ".data ++ (Nat.repr (j + 1)).data

/-- The padding query `f"{topic_kw} segment {i} extra"`. -/
def fb_extra (kw : Str) (i : Nat) : Str :=
  kw ++ " segment ".data ++ (Nat.repr i).data ++ " extra".data

/-- The parse-error fallback query `f"{topic_kw} error {j+1}"`. -/
def fb_error (kw : Str) (j : Nat) : Str :=
  kw ++ " error ".data ++ (Nat.repr (j + 1)).data

/-- `batch_refine_scenes` from image_query_refiner.py, as a function of the
number of segments and the external-call outcome (the segments' text only
feeds the prompt, which the outcome already abstracts).  A non-list value
under some key would raise inside the `try` block and is caught by the same
`except`, i.e. it behaves like `unparseable`; the `parsed` constructor
covers the JSON-object outcomes the result loop actually iterates over.
The function is total: every outcome yields a result (the code never
raises). -/
def batch_refine_scenes (numSegments images_per_segment : Nat) (topic : Str)
    (outcome : CallOutcome) : List (Nat × List Str) :=
  let topic_kw := _get_topic_keyword topic
  match outcome with
  | .failed =>
    (List.range numSegments).map (fun i =>
      (i, (List.range images_per_segment).map (fun j => fb_failed topic_kw i j)))
  | .unparseable =>
    (List.range numSegments).map (fun i =>
      (i, (List.range images_per_segment).map (fun j => fb_error topic_kw j)))
  | .parsed m =>
    (List.range numSegments).map (fun i =>
      let qlist := ((lookupIdx m i).getD []).filterMap
        (fun v => match v with | .str s => some s | .other => none)
      (i, (qlist ++ List.replicate images_per_segment (fb_extra topic_kw i)).take
        images_per_segment))

/-- Lookup of one index in the returned mapping (`out[i]` in Python). -/
def resultAt (r : List (Nat × List Str)) (i : Nat) : Option (List Str) :=
  (r.find? (fun pr => pr.1 = i)).map Prod.snd

theorem find?_map_range_of_lt {α : Type} (g : Nat → α) {nS i : Nat} (hi : i < nS) :
    ((List.range nS).map (fun j => (j, g j))).find? (fun pr => pr.1 = i) =
      some (i, g i) := by
  have hmem : i ∈ List.range nS := List.mem_range.mpr hi
  clear hi
  induction nS with
  | zero => simp at hmem
  | succ n ih =>
    rw [List.range_succ] at hmem ⊢
    rcases List.mem_append.mp hmem with h | h
    · rw [List.map_append, List.find?_append, ih h]
      rfl
    · simp only [List.mem_singleton] at h
      subst h
      rw [List.map_append, List.find?_append]
      cases hfind : ((List.range i).map (fun j => (j, g j))).find? (fun pr => pr.1 = i) with
      | none => simp
      | some pr =>
        have := List.find?_some hfind
        have hmem2 := List.mem_of_find?_eq_some hfind
        obtain ⟨j, hj, hpr⟩ := List.mem_map.mp hmem2
        rw [← hpr] at this
        simp only [decide_eq_true_eq] at this
        rw [this] at hj
        exact absurd (List.mem_range.mp hj) (lt_irrefl i)

theorem find?_map_range_of_ge {α : Type} (g : Nat → α) {nS i : Nat} (hi : nS ≤ i) :
    ((List.range nS).map (fun j => (j, g j))).find? (fun pr => pr.1 = i) = none := by
  apply List.find?_eq_none.mpr
  intro pr hpr
  obtain ⟨j, hj, hpr⟩ := List.mem_map.mp hpr
  rw [← hpr]
  simp only [decide_eq_true_eq]
  exact fun h => absurd (List.mem_range.mp hj) (by omega)

/-- C2: batch_refine_scenes is total and index-local: for every segment
count, every images-per-segment count N ≥ 1, every topic, and every
external-call outcome, the result's keys are exactly 0..numSegments-1 and
every index maps to exactly N query strings; in the parsed case an index
missing from the external result gets the deterministic topic-derived
padding fallback, and the result at an index depends only on that index's
entry in the external result, so a failure at one index leaves the others
unchanged. -/
theorem c2_batch_refine_total (numSegments n : Nat) (topic : Str)
    (outcome : CallOutcome) (hn : 1 ≤ n) :
    ((batch_refine_scenes numSegments n topic outcome).map Prod.fst
        = List.range numSegments) ∧
    (∀ pr ∈ batch_refine_scenes numSegments n topic outcome, pr.2.length = n) ∧
    (∀ m i, i < numSegments → lookupIdx m i = none →
      resultAt (batch_refine_scenes numSegments n topic (CallOutcome.parsed m)) i =
        some (List.replicate n (fb_extra (_get_topic_keyword topic) i))) ∧
    (∀ m₁ m₂ i, lookupIdx m₁ i = lookupIdx m₂ i →
      resultAt (batch_refine_scenes numSegments n topic (CallOutcome.parsed m₁)) i =
        resultAt (batch_refine_scenes numSegments n topic (CallOutcome.parsed m₂)) i) := by
  refine ⟨?_, ?_, ?_, ?_⟩
  · cases outcome <;>
      simp [batch_refine_scenes, List.map_map, Function.comp_def]
  · intro pr hpr
    cases outcome with
    | failed =>
      obtain ⟨i, _, hpr⟩ := List.mem_map.mp hpr
      rw [← hpr]; simp
    | unparseable =>
      obtain ⟨i, _, hpr⟩ := List.mem_map.mp hpr
      rw [← hpr]; simp
    | parsed m =>
      obtain ⟨i, _, hpr⟩ := List.mem_map.mp hpr
      rw [← hpr]
      simp only [List.length_take, List.length_append, List.length_replicate]
      omega
  · intro m i hi hnone
    unfold resultAt batch_refine_scenes
    dsimp only
    rw [find?_map_range_of_lt _ hi]
    simp [hnone, List.take_replicate]
  · intro m₁ m₂ i heq
    unfold resultAt batch_refine_scenes
    dsimp only
    by_cases hi : i < numSegments
    · rw [find?_map_range_of_lt _ hi, find?_map_range_of_lt _ hi]
      simp [heq]
    · rw [find?_map_range_of_ge _ (by omega), find?_map_range_of_ge _ (by omega)]

/-- Witness for C2 at numSegments = 2, N = 2, topic `Hybrid Cars`, with the
external call failing outright. -/
theorem c2_batch_refine_total_witness :
    ((batch_refine_scenes 2 2 "Hybrid Cars".data CallOutcome.failed).map Prod.fst
        = List.range 2) ∧
    (∀ pr ∈ batch_refine_scenes 2 2 "Hybrid Cars".data CallOutcome.failed,
        pr.2.length = 2) :=
  ⟨(c2_batch_refine_total 2 2 "Hybrid Cars".data CallOutcome.failed (by decide)).1,
   (c2_batch_refine_total 2 2 "Hybrid Cars".data CallOutcome.failed (by decide)).2.1⟩

/-! ## video_generator.py and pipeline.py

Audio durations (`AudioFileClip(..).duration`) are modelled as exact
rationals supplied by a function `dur`, and `os.path.exists` as a
predicate `ex` on paths. -/

/-- A segment dict as annotated by the pipeline: the parsed segment plus
the accumulated `audio_path` and `images` entries. -/
structure VSeg where
  base : Seg
  audio_path : Option Str
  images : List Str
deriving DecidableEq, Repr

/-- One rendered per-segment clip: either the dark `ColorClip` placeholder
spanning a duration, or the list of (image, time-slice) pairs. -/
inductive Clip where
  | placeholder (dur : ℚ)
  | slices (pairs : List (Str × ℚ))
deriving DecidableEq, Repr

/-- The body of `VideoGenerator.create_video`'s per-segment loop: skip the
segment when its audio path is absent, empty or does not exist; filter the
image paths to the non-empty existing ones; with no remaining image emit
the placeholder over the full audio duration, otherwise give each image the
equal slice `dur / len(img_paths)`.  The division here is exact rational
division, which suffices for the structural claims (clip presence, order,
filtering, placeholder shape); `create_video_clip_f64` below refines the
same loop with the division at IEEE-754 binary64 fidelity for the
numerical claim about the slice durations. -/
def create_video_clip (ex : Str → Bool) (dur : Str → ℚ) (seg : VSeg) : Option Clip :=
  match seg.audio_path with
  | none => none
  | some a =>
    if a = [] ∨ ex a = false then none
    else
      let d := dur a
      let img_paths := seg.images.filter (fun p => decide (p ≠ []) && ex p)
      if img_paths = [] then some (Clip.placeholder d)
      else
        let per := d / img_paths.length
        some (Clip.slices (img_paths.map (fun p => (p, per))))

/-- `VideoGenerator.create_video`'s clip list, in segment order. -/
def create_video (ex : Str → Bool) (dur : Str → ℚ) (segments : List VSeg) : List Clip :=
  segments.filterMap (create_video_clip ex dur)

/-- The visual-slice durations of a clip. -/
def clip_durations : Clip → List ℚ
  | .placeholder d => [d]
  | .slices pairs => pairs.map Prod.snd

/-- Round a rational to the nearest integer, ties to the even integer —
the rounding direction of IEEE-754 round-to-nearest. -/
def roundHalfEven (q : ℚ) : ℤ :=
  if q - ⌊q⌋ < 1 / 2 then ⌊q⌋
  else if 1 / 2 < q - ⌊q⌋ then ⌊q⌋ + 1
  else if ⌊q⌋ % 2 = 0 then ⌊q⌋ else ⌊q⌋ + 1

/-- Round a positive rational to the nearest IEEE-754 binary64 value
(round to nearest, ties to even): the 53-bit significand is the half-even
rounding of `x · 2^(52 - ⌊log₂ x⌋)`.  This is exact for the format's
normal range, which covers every duration this pipeline handles;
non-positive inputs, which do not arise, map to 0. -/
def f64_round (x : ℚ) : ℚ :=
  if x ≤ 0 then 0
  else (roundHalfEven (x * 2 ^ (52 - Int.log 2 x)) : ℚ) * 2 ^ (Int.log 2 x - 52)

/-- IEEE-754 binary64 division, as Python's float `/` performs it: the
correctly rounded exact quotient. -/
def f64_div (a b : ℚ) : ℚ := f64_round (a / b)

/-- The body of `VideoGenerator.create_video`'s per-segment loop with the
duration arithmetic at binary64 fidelity: `per = dur / len(img_paths)` is
a Python float division, so each slice receives the rounded quotient
`f64_div dur len` (the `dur : Str → ℚ` field carries the exact rational
value of the binary64 duration `AudioFileClip(..).duration`). -/
def create_video_clip_f64 (ex : Str → Bool) (dur : Str → ℚ) (seg : VSeg) : Option Clip :=
  match seg.audio_path with
  | none => none
  | some a =>
    if a = [] ∨ ex a = false then none
    else
      let d := dur a
      let img_paths := seg.images.filter (fun p => decide (p ≠ []) && ex p)
      if img_paths = [] then some (Clip.placeholder d)
      else
        let per := f64_div d img_paths.length
        some (Clip.slices (img_paths.map (fun p => (p, per))))

/-- Step 3 of `pipeline.build_video`: call TTS per segment in order and
keep (annotated with its audio path) exactly each segment whose synthesis
returned a path. -/
def tts_stage (synth : Nat → Option Str) (segments : List Seg) : List VSeg :=
  segments.enum.filterMap (fun pr => (synth pr.1).map (fun p => VSeg.mk pr.2 (some p) []))

theorem tts_stage_base_eq (synth : Nat → Option Str) (l : List (Nat × Seg)) :
    ((l.filterMap (fun pr => (synth pr.1).map (fun p => VSeg.mk pr.2 (some p) []))).map
        VSeg.base)
      = (l.filter (fun pr => (synth pr.1).isSome)).map Prod.snd := by
  induction l with
  | nil => rfl
  | cons pr rest ih =>
    cases h : synth pr.1 <;> simp [List.filterMap_cons, List.filter_cons, h, ih]

theorem filterMap_length_of_all_isSome {α β : Type} (f : α → Option β) (l : List α)
    (h : ∀ x ∈ l, (f x).isSome = true) : (l.filterMap f).length = l.length := by
  induction l with
  | nil => rfl
  | cons x rest ih =>
    have hx := h x (by simp)
    obtain ⟨y, hy⟩ := Option.isSome_iff_exists.mp hx
    rw [List.filterMap_cons, hy]
    simp only [List.length_cons]
    rw [ih (fun z hz => h z (by simp [hz]))]

/-- C3: for every list of parsed segments and every pattern of per-segment
TTS success/failure (with TTS-produced paths non-empty and existing on
disk), the voiced list is exactly the success-filtered enumeration of the
Segmenter's output in order — neither reordered nor duplicated — and the
assembler turns every voiced segment into exactly one clip, so the final
timeline contains exactly the segments whose audio synthesis succeeded. -/
theorem c3_timeline_order (synth : Nat → Option Str) (ex : Str → Bool)
    (dur : Str → ℚ) (segments : List Seg)
    (hgood : ∀ i p, synth i = some p → p ≠ [] ∧ ex p = true) :
    ((tts_stage synth segments).map VSeg.base
        = (segments.enum.filter (fun pr => (synth pr.1).isSome)).map Prod.snd) ∧
    ((tts_stage synth segments).map VSeg.base).Sublist segments ∧
    (∀ v ∈ tts_stage synth segments, (create_video_clip ex dur v).isSome = true) ∧
    (create_video ex dur (tts_stage synth segments)).length
        = (tts_stage synth segments).length := by
  have hbase : (tts_stage synth segments).map VSeg.base
      = (segments.enum.filter (fun pr => (synth pr.1).isSome)).map Prod.snd :=
    tts_stage_base_eq synth segments.enum
  have hsome : ∀ v ∈ tts_stage synth segments,
      (create_video_clip ex dur v).isSome = true := by
    intro v hv
    obtain ⟨pr, _, hpr⟩ := List.mem_filterMap.mp hv
    obtain ⟨p, hp, hvp⟩ := Option.map_eq_some.mp hpr
    obtain ⟨hne, hex⟩ := hgood pr.1 p hp
    rw [← hvp]
    unfold create_video_clip
    simp only [hex]
    split_ifs with h1 h2 <;> simp_all
  refine ⟨hbase, ?_, hsome, ?_⟩
  · rw [hbase]
    have h1 : (segments.enum.filter (fun pr => (synth pr.1).isSome)).Sublist
        segments.enum := List.filter_sublist _
    have h2 := h1.map Prod.snd
    rwa [List.enum_map_snd] at h2
  · exact filterMap_length_of_all_isSome _ _ hsome

/-- Witness for C3: two segments, TTS failing on the first. -/
theorem c3_timeline_order_witness :
    ((tts_stage (fun i => if i = 0 then none else some "scene_1.mp3".data)
        [Seg.mk none "A".data, Seg.mk (some "H".data) "H. B".data]).map VSeg.base
      = [Seg.mk (some "H".data) "H. B".data]) := by
  have h := c3_timeline_order
    (fun i => if i = 0 then none else some "scene_1.mp3".data)
    (fun _ => true) (fun _ => (3 : ℚ))
    [Seg.mk none "A".data, Seg.mk (some "H".data) "H. B".data]
    (by
      intro i p hp
      dsimp only at hp
      split_ifs at hp with hi
      have hv := Option.some.inj hp
      exact ⟨by rw [← hv]; decide, rfl⟩)
  rw [h.1]
  decide

theorem clip_durations_slices (pairs : List (Str × ℚ)) :
    clip_durations (Clip.slices pairs) = pairs.map Prod.snd := rfl

theorem snd_of_pair_map (l : List Str) (q : ℚ) :
    (l.map (fun p => (p, q))).map Prod.snd = List.replicate l.length q := by
  induction l with
  | nil => rfl
  | cons x xs ih => simp [ih, List.replicate_succ]

theorem roundHalfEven_nonneg {q : ℚ} (hq : 0 ≤ q) : 0 ≤ roundHalfEven q := by
  unfold roundHalfEven
  have hf : (0 : ℤ) ≤ ⌊q⌋ := Int.floor_nonneg.mpr hq
  split_ifs <;> omega

theorem f64_round_nonneg (x : ℚ) : 0 ≤ f64_round x := by
  unfold f64_round
  split_ifs with h
  · exact le_refl 0
  · push_neg at h
    apply mul_nonneg
    · exact_mod_cast roundHalfEven_nonneg (by positivity)
    · positivity

theorem create_video_clip_f64_slices (ex : Str → Bool) (dur : Str → ℚ) (seg : VSeg)
    (a : Str) (ha : seg.audio_path = some a) (hane : a ≠ []) (hex : ex a = true)
    (hsome : seg.images.filter (fun p => decide (p ≠ []) && ex p) ≠ []) :
    create_video_clip_f64 ex dur seg = some (Clip.slices
      ((seg.images.filter (fun p => decide (p ≠ []) && ex p)).map
        (fun p => (p, f64_div (dur a)
          (seg.images.filter (fun p => decide (p ≠ []) && ex p)).length)))) := by
  unfold create_video_clip_f64
  rw [ha]
  simp only
  rw [if_neg (by simp [hane, hex]), if_neg hsome]

/-- C6 counterexample: under binary64 arithmetic the slices do NOT sum to
exactly D, and no last slice absorbs the remainder (all slices are equal):
with audio duration D = 10 and m = 3 valid images each slice is assigned
`fl(10/3) = 7505999378950827 · 2⁻⁵¹` and the three slice durations sum to
`22517998136852481 · 2⁻⁵¹ ≠ 10`, refuting the claim as stated. -/
theorem c6_counterexample :
    create_video_clip_f64 (fun _ => true) (fun _ => (10 : ℚ))
        (VSeg.mk (Seg.mk none "x".data) (some "scene_0.mp3".data)
          ["i1.jpg".data, "i2.jpg".data, "i3.jpg".data])
      = some (Clip.slices
          [("i1.jpg".data, 7505999378950827 / 2 ^ 51),
           ("i2.jpg".data, 7505999378950827 / 2 ^ 51),
           ("i3.jpg".data, 7505999378950827 / 2 ^ 51)]) ∧
    (clip_durations (Clip.slices
          [("i1.jpg".data, (7505999378950827 : ℚ) / 2 ^ 51),
           ("i2.jpg".data, 7505999378950827 / 2 ^ 51),
           ("i3.jpg".data, 7505999378950827 / 2 ^ 51)])).sum ≠ 10 := by
  have hper : f64_div 10 3 = 7505999378950827 / 2 ^ 51 := by
    unfold f64_div f64_round
    rw [if_neg (by norm_num : ¬ (10 : ℚ) / 3 ≤ 0)]
    have hlog : Int.log 2 ((10 : ℚ) / 3) = 1 := by
      have h1 : (1 : ℤ) ≤ Int.log 2 ((10 : ℚ) / 3) := by
        rw [← Int.zpow_le_iff_le_log (by norm_num) (by norm_num)]
        norm_num
      have h2 : Int.log 2 ((10 : ℚ) / 3) < 2 := by
        rw [← Int.lt_zpow_iff_log_lt (by norm_num) (by norm_num)]
        norm_num
      omega
    rw [hlog]
    have hq : ((10 : ℚ) / 3) * 2 ^ ((52 : ℤ) - 1) = 22517998136852480 / 3 := by
      norm_num
    rw [hq]
    unfold roundHalfEven
    have hfl : ⌊(22517998136852480 : ℚ) / 3⌋ = 7505999378950826 := by
      rw [Int.floor_eq_iff]
      constructor <;> norm_num
    rw [hfl]
    rw [if_neg (by norm_num), if_pos (by norm_num)]
    norm_num
  constructor
  · have hclip := create_video_clip_f64_slices (fun _ => true) (fun _ => (10 : ℚ))
      (VSeg.mk (Seg.mk none "x".data) (some "scene_0.mp3".data)
        ["i1.jpg".data, "i2.jpg".data, "i3.jpg".data])
      "scene_0.mp3".data rfl (by decide) rfl (by decide)
    have hfil : (["i1.jpg".data, "i2.jpg".data, "i3.jpg".data] : List Str).filter
        (fun p => decide (p ≠ []) && (fun _ => true) p)
        = ["i1.jpg".data, "i2.jpg".data, "i3.jpg".data] := by decide
    rw [hfil] at hclip
    simp only [List.map_cons, List.map_nil, List.length_cons, List.length_nil] at hclip
    norm_num at hclip
    rw [hper] at hclip
    exact hclip
  · simp only [clip_durations, List.map_cons, List.map_nil, List.sum_cons, List.sum_nil]
    norm_num

/-- C6 (amended): a segment with a valid audio artifact of duration D > 0
and m ≥ 1 valid images gets m slices, all assigned the same non-negative
duration fl(D/m) — the binary64 rounding of D/m — so the slice durations
sum to m · fl(D/m) (equal to D only when D/m is representable; the code
has no last-slice remainder absorption); with zero valid images a single
placeholder visual spans the full duration D exactly (so the slice count
is `max m 1`). -/
theorem c6_slices_f64 (ex : Str → Bool) (dur : Str → ℚ) (seg : VSeg) (a : Str)
    (ha : seg.audio_path = some a) (hane : a ≠ []) (hex : ex a = true)
    (hD : 0 < dur a) :
    ∃ c, create_video_clip_f64 ex dur seg = some c ∧
      (clip_durations c).length
        = max (seg.images.filter (fun p => decide (p ≠ []) && ex p)).length 1 ∧
      (∀ q ∈ clip_durations c, 0 ≤ q) ∧
      ((seg.images.filter (fun p => decide (p ≠ []) && ex p)).length = 0 →
        (clip_durations c).sum = dur a) ∧
      (0 < (seg.images.filter (fun p => decide (p ≠ []) && ex p)).length →
        (clip_durations c).sum
          = ((seg.images.filter (fun p => decide (p ≠ []) && ex p)).length : ℚ)
            * f64_div (dur a)
                (seg.images.filter (fun p => decide (p ≠ []) && ex p)).length) := by
  unfold create_video_clip_f64
  rw [ha]
  simp only
  rw [if_neg (by simp [hane, hex])]
  set imgs := seg.images.filter (fun p => decide (p ≠ []) && ex p) with himgs
  by_cases hempty : imgs = []
  · refine ⟨Clip.placeholder (dur a), by simp [hempty], ?_, ?_, ?_, ?_⟩
    · simp [clip_durations, hempty]
    · intro q hq
      simp only [clip_durations, List.mem_singleton] at hq
      rw [hq]; exact hD.le
    · intro _
      simp [clip_durations]
    · intro hpos
      rw [hempty] at hpos
      simp at hpos
  · have hm : 1 ≤ imgs.length := List.length_pos.mpr hempty
    refine ⟨Clip.slices (imgs.map (fun p => (p, f64_div (dur a) imgs.length))),
      by simp [hempty], ?_, ?_, ?_, ?_⟩
    · rw [clip_durations_slices, snd_of_pair_map, List.length_replicate]
      omega
    · intro q hq
      rw [clip_durations_slices, snd_of_pair_map] at hq
      rw [List.eq_of_mem_replicate hq]
      exact f64_round_nonneg _
    · intro h0
      exact absurd (List.length_eq_zero.mp h0) hempty
    · intro _
      rw [clip_durations_slices, snd_of_pair_map, List.sum_replicate, nsmul_eq_mul]

/-- Witness for C6 (amended): audio duration 9 and three valid images give
three equal non-negative slices summing to 3 · fl(9/3). -/
theorem c6_slices_f64_witness :
    ∃ c, create_video_clip_f64 (fun _ => true) (fun _ => (9 : ℚ))
        (VSeg.mk (Seg.mk none "x".data) (some "scene_0.mp3".data)
          ["i1.jpg".data, "i2.jpg".data, "i3.jpg".data]) = some c ∧
      (clip_durations c).length
        = max ((["i1.jpg".data, "i2.jpg".data, "i3.jpg".data] : List Str).filter
            (fun p => decide (p ≠ []) && (fun _ => true) p)).length 1 ∧
      (∀ q ∈ clip_durations c, 0 ≤ q) ∧
      (((["i1.jpg".data, "i2.jpg".data, "i3.jpg".data] : List Str).filter
          (fun p => decide (p ≠ []) && (fun _ => true) p)).length = 0 →
        (clip_durations c).sum = 9) ∧
      (0 < ((["i1.jpg".data, "i2.jpg".data, "i3.jpg".data] : List Str).filter
          (fun p => decide (p ≠ []) && (fun _ => true) p)).length →
        (clip_durations c).sum
          = (((["i1.jpg".data, "i2.jpg".data, "i3.jpg".data] : List Str).filter
              (fun p => decide (p ≠ []) && (fun _ => true) p)).length : ℚ)
            * f64_div 9 ((["i1.jpg".data, "i2.jpg".data, "i3.jpg".data] : List Str).filter
                (fun p => decide (p ≠ []) && (fun _ => true) p)).length) :=
  c6_slices_f64 (fun _ => true) (fun _ => (9 : ℚ))
    (VSeg.mk (Seg.mk none "x".data) (some "scene_0.mp3".data)
      ["i1.jpg".data, "i2.jpg".data, "i3.jpg".data])
    "scene_0.mp3".data rfl (by decide) rfl (by norm_num)

/-- C10: the assembler filters out empty and non-existing image paths
before slicing; a segment whose audio path is absent, empty or missing on
disk contributes no clip; a valid-audio segment with no remaining valid
image is still rendered, as a single placeholder clip spanning the full
audio duration; and when valid images remain the slices are built from
exactly the filtered image list. -/
theorem c10_assembler_robustness (ex : Str → Bool) (dur : Str → ℚ) (seg : VSeg) :
    (seg.audio_path = none → create_video_clip ex dur seg = none) ∧
    (∀ a, seg.audio_path = some a → (a = [] ∨ ex a = false) →
      create_video_clip ex dur seg = none) ∧
    (∀ a, seg.audio_path = some a → a ≠ [] → ex a = true →
      seg.images.filter (fun p => decide (p ≠ []) && ex p) = [] →
      create_video_clip ex dur seg = some (Clip.placeholder (dur a))) ∧
    (∀ a, seg.audio_path = some a → a ≠ [] → ex a = true →
      seg.images.filter (fun p => decide (p ≠ []) && ex p) ≠ [] →
      create_video_clip ex dur seg = some (Clip.slices
        ((seg.images.filter (fun p => decide (p ≠ []) && ex p)).map
          (fun p => (p, dur a
            / (seg.images.filter (fun p => decide (p ≠ []) && ex p)).length))))) := by
  refine ⟨?_, ?_, ?_, ?_⟩
  · intro h
    unfold create_video_clip
    rw [h]
  · intro a ha hbad
    unfold create_video_clip
    rw [ha]
    simp only
    rw [if_pos hbad]
  · intro a ha hane hex hnone
    unfold create_video_clip
    rw [ha]
    simp only
    rw [if_neg (by simp [hane, hex]), if_pos hnone]
  · intro a ha hane hex hsome
    unfold create_video_clip
    rw [ha]
    simp only
    rw [if_neg (by simp [hane, hex]), if_neg hsome]

/-- Witness for C10: a segment without audio yields no clip, and a segment
whose image paths are all empty or missing is rendered as the placeholder
over its full 6-unit audio duration. -/
theorem c10_assembler_robustness_witness :
    create_video_clip (fun p => decide (p ≠ "missing.jpg".data))
        (fun _ => (6 : ℚ)) (VSeg.mk (Seg.mk none "x".data) none ["i.jpg".data]) = none ∧
    create_video_clip (fun p => decide (p ≠ "missing.jpg".data))
        (fun _ => (6 : ℚ))
        (VSeg.mk (Seg.mk none "x".data) (some "a.mp3".data)
          [[], "missing.jpg".data]) = some (Clip.placeholder 6) :=
  ⟨(c10_assembler_robustness (fun p => decide (p ≠ "missing.jpg".data))
      (fun _ => (6 : ℚ)) (VSeg.mk (Seg.mk none "x".data) none ["i.jpg".data])).1 rfl,
   (c10_assembler_robustness (fun p => decide (p ≠ "missing.jpg".data))
      (fun _ => (6 : ℚ)) (VSeg.mk (Seg.mk none "x".data) (some "a.mp3".data)
        [[], "missing.jpg".data])).2.2.1 "a.mp3".data rfl (by decide) (by decide)
        (by decide)⟩

/-! ## fetch_serp.py

The local filesystem is modelled as a predicate `Str → Bool` (true =
the file exists); each download attempt's observable outcome is the HTTP
request failing, or a response body with a content hash, whether `PIL`
can decode it, and its decoded pixel width. -/

def MIN_WIDTH : Nat := 1000

/-- What one `requests.get` attempt of `_save_image` observes. -/
inductive FetchOutcome where
  | httpError
  | image (hash : Str) (decodes : Bool) (width : Nat)
deriving DecidableEq, Repr

/-- One iteration of `_save_image`'s retry loop: on HTTP failure nothing
was written; otherwise the body is written to `md5(raw).jpg`, then the
decode check and the width check run, unlinking the file on failure; on
success the sidecar `.json` metadata is written and the path returned. -/
def _save_attempt (disk : Str → Bool) (o : FetchOutcome) : (Str → Bool) × Option Str :=
  match o with
  | .httpError => (disk, none)
  | .image h dec w =>
    let fn := h ++ ".jpg".data
    let disk1 := fun f => if f = fn then true else disk f
    if dec = false then (fun f => if f = fn then false else disk1 f, none)
    else if w < MIN_WIDTH then (fun f => if f = fn then false else disk1 f, none)
    else (fun f => if f = h ++ ".json".data then true else disk1 f, some fn)

/-- The retry loop of `_save_image` over the per-attempt outcomes: stop at
the first success, thread the filesystem through failed attempts. -/
def _save_image (disk : Str → Bool) : List FetchOutcome → (Str → Bool) × Option Str
  | [] => (disk, none)
  | o :: rest =>
    match _save_attempt disk o with
    | (d, some fn) => (d, some fn)
    | (d, none) => _save_image d rest

/-- `_save_image(url, meta, tries=3)`: the loop `for attempt in range(tries)`
queries the download environment at most `tries` times. -/
def _save_image_run (env : Nat → FetchOutcome) (tries : Nat) (disk : Str → Bool) :
    (Str → Bool) × Option Str :=
  _save_image disk ((List.range tries).map env)

/-- An attempt outcome that fails validation: HTTP error, undecodable
image, or width below `MIN_WIDTH`. -/
def failsValidation : FetchOutcome → Bool
  | .httpError => true
  | .image _ dec w => !dec || decide (w < MIN_WIDTH)

theorem save_attempt_fail_clean (disk : Str → Bool) (o : FetchOutcome)
    (h : failsValidation o = true) :
    (_save_attempt disk o).2 = none ∧
      ∀ f, (_save_attempt disk o).1 f = true → disk f = true := by
  cases o with
  | httpError => exact ⟨rfl, fun f hf => hf⟩
  | image hsh dec w =>
    simp only [failsValidation, Bool.or_eq_true, Bool.not_eq_true',
      decide_eq_true_eq] at h
    constructor
    · rcases h with h | h
      · simp [_save_attempt, h]
      · by_cases hd : dec = false
        · simp [_save_attempt, hd]
        · simp [_save_attempt, hd, h]
    · intro f hf
      rcases h with h | h
      · by_cases hfn : f = hsh ++ ".jpg".data
        · simp [_save_attempt, h, hfn] at hf
        · simpa [_save_attempt, h, hfn] using hf
      · by_cases hd : dec = false
        · by_cases hfn : f = hsh ++ ".jpg".data
          · simp [_save_attempt, hd, hfn] at hf
          · simpa [_save_attempt, hd, hfn] using hf
        · by_cases hfn : f = hsh ++ ".jpg".data
          · simp [_save_attempt, hd, h, hfn] at hf
          · simpa [_save_attempt, hd, h, hfn] using hf

theorem save_image_all_fail (outcomes : List FetchOutcome) (disk : Str → Bool)
    (h : ∀ o ∈ outcomes, failsValidation o = true) :
    (_save_image disk outcomes).2 = none ∧
      ∀ f, (_save_image disk outcomes).1 f = true → disk f = true := by
  induction outcomes generalizing disk with
  | nil => exact ⟨rfl, fun f hf => hf⟩
  | cons o rest ih =>
    have ho := save_attempt_fail_clean disk o (h o (by simp))
    have hrest := ih (_save_attempt disk o).1 (fun x hx => h x (by simp [hx]))
    have hd : _save_attempt disk o = ((_save_attempt disk o).1, none) := by
      rw [← ho.1]
    have hstep : _save_image disk (o :: rest) = _save_image (_save_attempt disk o).1 rest := by
      rw [_save_image, hd]
    rw [hstep]
    exact ⟨hrest.1, fun f hf => ho.2 f (hrest.2 f hf)⟩

/-- C7: the asset saver queries the download source at most `tries = 3`
times; every failure path (HTTP error, undecodable image, width below the
1000px minimum) removes the partially written file, creating nothing new;
and against a source that only ever returns decodable images of
sub-threshold width, the run returns no artifact and an initially empty
filesystem stays empty — zero residual files.  (The 1-second backoff
between failed attempts is wall-clock behaviour outside this model.) -/
theorem c7_fetch_cleanup (env : Nat → FetchOutcome) (disk : Str → Bool) :
    (∀ env' : Nat → FetchOutcome, (∀ k, k < 3 → env k = env' k) →
      _save_image_run env 3 disk = _save_image_run env' 3 disk) ∧
    (∀ o, failsValidation o = true →
      (_save_attempt disk o).2 = none ∧
        ∀ f, (_save_attempt disk o).1 f = true → disk f = true) ∧
    ((∀ k, k < 3 → ∃ hsh w, env k = FetchOutcome.image hsh true w ∧ w < MIN_WIDTH) →
      (_save_image_run env 3 (fun _ => false)).2 = none ∧
        ∀ f, (_save_image_run env 3 (fun _ => false)).1 f = false) := by
  refine ⟨?_, fun o ho => save_attempt_fail_clean disk o ho, ?_⟩
  · intro env' hagree
    unfold _save_image_run
    have : (List.range 3).map env = (List.range 3).map env' := by
      apply List.map_congr_left
      intro k hk
      exact hagree k (List.mem_range.mp hk)
    rw [this]
  · intro hsub
    have hfail : ∀ o ∈ (List.range 3).map env, failsValidation o = true := by
      intro o ho
      obtain ⟨k, hk, hko⟩ := List.mem_map.mp ho
      obtain ⟨hsh, w, hw, hlt⟩ := hsub k (List.mem_range.mp hk)
      rw [← hko, hw]
      simp [failsValidation, hlt]
    have h := save_image_all_fail ((List.range 3).map env) (fun _ => false) hfail
    refine ⟨h.1, fun f => ?_⟩
    cases hf : (_save_image (fun _ => false) ((List.range 3).map env)).1 f with
    | false => exact hf
    | true => exact absurd (h.2 f hf) (by simp)

/-- Witness for C7: a source that always answers with a decodable 800px
image yields no artifact from an empty filesystem and leaves it empty. -/
theorem c7_fetch_cleanup_witness :
    (_save_image_run (fun _ => FetchOutcome.image "h".data true 800) 3
        (fun _ => false)).2 = none :=
  ((c7_fetch_cleanup (fun _ => FetchOutcome.image "h".data true 800)
      (fun _ => false)).2.2
    (fun k _ => ⟨"h".data, 800, rfl, by decide⟩)).1

/-! ## tts_processor.py

`_chunk_and_combine` and `_combine`; synthesis of one chunk is the
external call, abstracted as `synth : chunk index → Option path` (the
written chunk file's path on success, `None` when the call raised and the
chunk was skipped). -/

/-- `text.replace("\n", " ")`. -/
def pyReplaceNl (t : Str) : Str := t.map (fun c => if c = '\n' then ' ' else c)

/-- One iteration of the greedy chunk accumulation loop over
`(chunks, cur)`. -/
def buildChunksStep (acc : List Str × Str) (s : Str) : List Str × Str :=
  if acc.2.length + s.length + 2 < 4000 then (acc.1, acc.2 ++ s ++ ['.', ' '])
  else (acc.1 ++ [acc.2], s ++ ['.', ' '])

/-- The chunk list built by `_chunk_and_combine` from the sentence list
(`if cur: chunks.append(cur)` at the end). -/
def buildChunks (sentences : List Str) : List Str :=
  let r := sentences.foldl buildChunksStep ([], [])
  if r.2 ≠ [] then r.1 ++ [r.2] else r.1

/-- The chunks of a narration text: sentences are `". "`-separated pieces
of the newline-flattened text. -/
def chunks_of (text : Str) : List Str :=
  buildChunks (pySplit ['.', ' '] (pyReplaceNl text))

/-- `TTSProcessor._combine`: with no parts return `None`; otherwise export
the concatenation of the parts (in list order) to `out`, then
`os.remove` every part.  The second component records the produced
artifact together with the ordered part list it concatenated. -/
def _combine (paths : List Str) (out : Str) (disk : Str → Bool) :
    (Str → Bool) × Option (Str × List Str) :=
  if paths = [] then (disk, none)
  else
    ((fun f => if decide (f ∈ paths) then false
      else if f = out then true else disk f),
     some (out, paths))

/-- `TTSProcessor._chunk_and_combine`: build the chunks, synthesize each
chunk independently (a failed chunk logs and is skipped), collect the
written chunk files in chunk order, and combine them. -/
def _chunk_and_combine (synth : Nat → Option Str) (text out : Str)
    (disk : Str → Bool) : (Str → Bool) × Option (Str × List Str) :=
  let chunks := chunks_of text
  let parts := (List.range chunks.length).filterMap synth
  let disk1 := fun f => if decide (f ∈ parts) then true else disk f
  _combine parts out disk1

theorem splitSepGo_no_dot (fuel : Nat) (l acc : Str) (h : ∀ c ∈ l, c ≠ '.') :
    splitSepGo ['.', ' '] fuel l acc = [acc.reverse ++ l] := by
  induction fuel generalizing l acc with
  | zero => rfl
  | succ n ih =>
    cases l with
    | nil => simp [splitSepGo]
    | cons c rest =>
      have hc : c ≠ '.' := h c (by simp)
      have hpre : (['.', ' '] : Str).isPrefixOf (c :: rest) = false := by
        simp [List.isPrefixOf, Ne.symm hc]
      rw [splitSepGo, if_neg (by simp [hpre])]
      rw [ih rest (c :: acc) (fun x hx => h x (by simp [hx]))]
      simp

theorem pySplit_no_dot (l : Str) (h : ∀ c ∈ l, c ≠ '.') :
    pySplit ['.', ' '] l = [l] := by
  unfold pySplit
  rw [splitSepGo_no_dot _ _ _ h]
  simp

theorem splitSepGo_ne_nil (sep : Str) (fuel : Nat) (l acc : Str) :
    splitSepGo sep fuel l acc ≠ [] := by
  induction fuel generalizing l acc with
  | zero => simp [splitSepGo]
  | succ n ih =>
    cases l with
    | nil => simp [splitSepGo]
    | cons c rest =>
      rw [splitSepGo]
      split_ifs
      · simp
      · exact ih _ _

theorem buildChunksStep_snd_ne_nil (acc : List Str × Str) (s : Str) :
    (buildChunksStep acc s).2 ≠ [] := by
  unfold buildChunksStep
  split_ifs <;> simp

theorem foldl_buildChunksStep_snd_ne_nil (sentences : List Str)
    (acc : List Str × Str) (h : acc.2 ≠ []) :
    (sentences.foldl buildChunksStep acc).2 ≠ [] := by
  induction sentences generalizing acc with
  | nil => exact h
  | cons s rest ih =>
    rw [List.foldl_cons]
    exact ih _ (buildChunksStep_snd_ne_nil acc s)

theorem chunks_of_ne_nil (text : Str) : chunks_of text ≠ [] := by
  unfold chunks_of buildChunks
  cases hs : pySplit ['.', ' '] (pyReplaceNl text) with
  | nil => exact absurd hs (splitSepGo_ne_nil _ _ _ _)
  | cons s rest =>
    dsimp only
    rw [List.foldl_cons]
    have hne := foldl_buildChunksStep_snd_ne_nil rest (buildChunksStep ([], []) s)
      (buildChunksStep_snd_ne_nil ([], []) s)
    rw [if_pos hne]
    simp

theorem buildChunks_aux (sentences : List Str) (acc : List Str × Str)
    (h : ∀ s ∈ sentences, s.length + 2 < 4000)
    (h1 : ∀ c ∈ acc.1, c.length < 4000) (h2 : acc.2.length < 4000) :
    (∀ c ∈ (sentences.foldl buildChunksStep acc).1, c.length < 4000) ∧
      (sentences.foldl buildChunksStep acc).2.length < 4000 := by
  induction sentences generalizing acc with
  | nil => exact ⟨h1, h2⟩
  | cons s rest ih =>
    rw [List.foldl_cons]
    have hs := h s (by simp)
    have hrest : ∀ x ∈ rest, x.length + 2 < 4000 := fun x hx => h x (by simp [hx])
    by_cases hcond : acc.2.length + s.length + 2 < 4000
    · have hstep : buildChunksStep acc s = (acc.1, acc.2 ++ s ++ ['.', ' ']) := by
        unfold buildChunksStep
        rw [if_pos hcond]
      rw [hstep]
      refine ih _ hrest (fun c hc => h1 c hc) ?_
      simp only [List.length_append, List.length_cons, List.length_nil]
      omega
    · have hstep : buildChunksStep acc s = (acc.1 ++ [acc.2], s ++ ['.', ' ']) := by
        unfold buildChunksStep
        rw [if_neg hcond]
      rw [hstep]
      refine ih _ hrest ?_ ?_
      · intro c hc
        rcases List.mem_append.mp hc with hc | hc
        · exact h1 c hc
        · rw [List.mem_singleton] at hc
          rw [hc]
          exact h2
      · simp only [List.length_append, List.length_cons, List.length_nil]
        omega

theorem buildChunks_bound (sentences : List Str)
    (h : ∀ s ∈ sentences, s.length + 2 < 4000) :
    ∀ c ∈ buildChunks sentences, c.length < 4000 := by
  intro c hc
  have haux := buildChunks_aux sentences ([], []) h (by simp) (by simp)
  unfold buildChunks at hc
  dsimp only at hc
  split_ifs at hc with hne
  · rcases List.mem_append.mp hc with h1 | h1
    · exact haux.1 c h1
    · rw [List.mem_singleton] at h1
      rw [h1]
      exact haux.2
  · exact haux.1 c hc

/-- C8 counterexample: the cleaned text of 4097 identical letters (length
above the 4096 threshold, no sentence separator anywhere) is chunked into
an empty chunk followed by one chunk of 4099 units — NOT into chunks each
shorter than 4000 units, refuting the claim as stated. -/
theorem pyReplaceNl_no_nl {t : Str} (h : ∀ c ∈ t, c ≠ '\n') : pyReplaceNl t = t := by
  unfold pyReplaceNl
  have hmap : t.map (fun c => if c = '\n' then ' ' else c) = t.map id :=
    List.map_congr_left (fun c hc => by rw [if_neg (h c hc)]; rfl)
  rw [hmap, List.map_id]

theorem c8_counterexample :
    4096 < (List.replicate 4097 'a' : Str).length ∧
    ∃ c ∈ chunks_of (List.replicate 4097 'a'), 4000 ≤ c.length := by
  have hsent : pySplit ['.', ' '] (pyReplaceNl (List.replicate 4097 'a'))
      = [List.replicate 4097 'a'] := by
    rw [pyReplaceNl_no_nl (fun c hc => by rw [List.eq_of_mem_replicate hc]; decide)]
    exact pySplit_no_dot _ (fun c hc => by rw [List.eq_of_mem_replicate hc]; decide)
  have hstepR : buildChunksStep ([], []) (List.replicate 4097 'a')
      = ([[]], List.replicate 4097 'a' ++ ['.', ' ']) := by
    unfold buildChunksStep
    rw [if_neg (by simp only [List.length_nil, List.length_replicate]; omega)]
    rfl
  have happ : (List.replicate 4097 'a' : Str) ++ ['.', ' '] ≠ [] := by
    intro h
    have hlen := congrArg List.length h
    simp only [List.length_append, List.length_replicate, List.length_cons,
      List.length_nil] at hlen
    omega
  have hch : chunks_of (List.replicate 4097 'a')
      = [[], List.replicate 4097 'a' ++ ['.', ' ']] := by
    unfold chunks_of
    rw [hsent]
    unfold buildChunks
    dsimp only
    rw [List.foldl_cons, List.foldl_nil, hstepR]
    dsimp only
    rw [if_pos happ]
    rfl
  refine ⟨?_, ⟨List.replicate 4097 'a' ++ ['.', ' '], ?_, ?_⟩⟩
  · simp only [List.length_replicate]
    omega
  · rw [hch]
    exact List.mem_cons_of_mem _ (List.mem_cons_self _ _)
  · simp only [List.length_append, List.length_replicate, List.length_cons,
      List.length_nil]
    omega

/-- C8 (amended): for every cleaned narration text longer than 4096 units
all of whose `". "`-separated sentences are shorter than 3998 units, the
chunks are each shorter than 4000 units; and with every chunk synthesis
succeeding, the processor concatenates the written chunk files in chunk
order into the single output artifact and deletes every intermediate chunk
file afterwards. -/
theorem c8_chunk_and_combine (synth : Nat → Option Str) (text out : Str)
    (disk : Str → Bool)
    (hlen : 4096 < text.length)
    (hsent : ∀ s ∈ pySplit ['.', ' '] (pyReplaceNl text), s.length + 2 < 4000)
    (hsynth : ∀ i, i < (chunks_of text).length → (synth i).isSome = true) :
    (∀ c ∈ chunks_of text, c.length < 4000) ∧
    ∃ d, _chunk_and_combine synth text out disk =
        (d, some (out, (List.range (chunks_of text).length).filterMap synth)) ∧
      ∀ p ∈ (List.range (chunks_of text).length).filterMap synth, d p = false := by
  have hbound : ∀ c ∈ chunks_of text, c.length < 4000 := by
    unfold chunks_of
    exact buildChunks_bound _ hsent
  refine ⟨hbound, ?_⟩
  set parts := (List.range (chunks_of text).length).filterMap synth with hparts
  have hplen : parts.length = (chunks_of text).length := by
    rw [hparts, filterMap_length_of_all_isSome _ _ (fun i hi =>
      hsynth i (List.mem_range.mp hi)), List.length_range]
  have hpne : parts ≠ [] := by
    intro hn
    rw [hn] at hplen
    exact chunks_of_ne_nil text (List.length_eq_zero.mp hplen.symm)
  have hcomb : _chunk_and_combine synth text out disk =
      ((fun f => if decide (f ∈ parts) then false
        else if f = out then true
        else if decide (f ∈ parts) then true else disk f),
       some (out, parts)) := by
    unfold _chunk_and_combine _combine
    dsimp only
    rw [← hparts, if_neg hpne]
  refine ⟨_, hcomb, fun p hp => ?_⟩
  simp [hp]

theorem splitSepGo_app (A : Str) : ∀ (B acc : Str) (f : Nat), (∀ c ∈ A, c ≠ '.') →
    splitSepGo ['.', ' '] (A.length + 1 + f) (A ++ '.' :: ' ' :: B) acc
      = (acc.reverse ++ A) :: splitSepGo ['.', ' '] f B [] := by
  induction A with
  | nil =>
    intro B acc f _
    have hf : (([] : Str).length + 1 + f) = f + 1 := by simp; omega
    rw [hf, List.nil_append, splitSepGo,
      if_pos (by simp [List.isPrefixOf] : (['.', ' '] : Str).isPrefixOf ('.' :: ' ' :: B) = true)]
    simp [splitSepGo]
  | cons c A2 ih =>
    intro B acc f hA
    have hc : c ≠ '.' := hA c (by simp)
    have hf : ((c :: A2 : Str).length + 1 + f) = (A2.length + 1 + f) + 1 := by
      simp only [List.length_cons]
      omega
    rw [hf, List.cons_append, splitSepGo,
      if_neg (by simp [List.isPrefixOf, Ne.symm hc]),
      ih B (c :: acc) f (fun x hx => hA x (by simp [hx]))]
    simp

theorem c8_witness_sentences :
    pySplit ['.', ' ']
        (pyReplaceNl (List.replicate 3000 'a' ++ ('.' :: ' ' :: List.replicate 1500 'b')))
      = [List.replicate 3000 'a', List.replicate 1500 'b'] := by
  have hnl : ∀ c ∈ (List.replicate 3000 'a' ++ ('.' :: ' ' :: List.replicate 1500 'b') : Str),
      c ≠ '\n' := by
    intro c hc
    rcases List.mem_append.mp hc with h | h
    · rw [List.eq_of_mem_replicate h]; decide
    · simp only [List.mem_cons] at h
      rcases h with h | h | h
      · rw [h]; decide
      · rw [h]; decide
      · rw [List.eq_of_mem_replicate h]; decide
  rw [pyReplaceNl_no_nl hnl]
  unfold pySplit
  have hlen1 : (List.replicate 3000 'a' ++ ('.' :: ' ' :: List.replicate 1500 'b') : Str).length
      = (List.replicate 3000 'a' : Str).length + 1 + ((List.replicate 1500 'b' : Str).length + 1) := by
    simp only [List.length_append, List.length_cons, List.length_replicate]
  rw [hlen1,
    splitSepGo_app _ _ _ _ (fun c hc => by rw [List.eq_of_mem_replicate hc]; decide),
    splitSepGo_no_dot _ _ _ (fun c hc => by rw [List.eq_of_mem_replicate hc]; decide)]
  rfl

/-- Witness for C8 (amended): a 4502-unit text of two short sentences is
chunked, fully synthesized, combined into `scene_0.mp3`, and every chunk
file is removed. -/
theorem c8_chunk_and_combine_witness :
    ∃ d, _chunk_and_combine (fun i => some ("chunk".data ++ (Nat.repr i).data))
        (List.replicate 3000 'a' ++ ('.' :: ' ' :: List.replicate 1500 'b'))
        "scene_0.mp3".data (fun _ => false) =
        (d, some ("scene_0.mp3".data,
          (List.range (chunks_of (List.replicate 3000 'a'
            ++ ('.' :: ' ' :: List.replicate 1500 'b'))).length).filterMap
            (fun i => some ("chunk".data ++ (Nat.repr i).data)))) ∧
      ∀ p ∈ (List.range (chunks_of (List.replicate 3000 'a'
          ++ ('.' :: ' ' :: List.replicate 1500 'b'))).length).filterMap
          (fun i => some ("chunk".data ++ (Nat.repr i).data)), d p = false :=
  (c8_chunk_and_combine (fun i => some ("chunk".data ++ (Nat.repr i).data))
    (List.replicate 3000 'a' ++ ('.' :: ' ' :: List.replicate 1500 'b'))
    "scene_0.mp3".data (fun _ => false)
    (by simp only [List.length_append, List.length_replicate, List.length_cons]; omega)
    (by
      rw [c8_witness_sentences]
      intro s hs
      simp only [List.mem_cons, List.mem_singleton] at hs
      rcases hs with h | h | h
      · rw [h, List.length_replicate]; omega
      · rw [h, List.length_replicate]; omega
      · exact absurd h (List.not_mem_nil s))
    (fun i _ => rfl)).2

end NV
